import Mathlib

/-!
# Verification of the tax-research source pipeline

A shallow embedding of the URL utilities (`src/utils/urlUtils.ts`), the
citation validator (`src/utils/urlUtils.ts`, second half) and the Brave
search / verification / aggregation service
(`src/services/braveSearchService.ts`).  Network and model calls are
modelled by explicit oracle functions collected in a `NetEnv` record;
everything else is translated function by function from the TypeScript
source.  JavaScript strings are modelled by Lean `String` (a list of
characters); WHATWG-URL parsing is modelled for hierarchical
`scheme://host/path?query#fragment` URLs (percent-encoding, punycode and
case normalisation of scheme/host are not modelled; strings outside this
shape take the same catch-branch the JS code takes when `new URL` throws).
-/

namespace TaxBuddy

/-! ## URL record model (the part of the WHATWG `URL` object the code uses) -/

/-- Components of a parsed hierarchical URL, mirroring the fields of the
JS `URL` object that `urlUtils.ts` reads and writes: `protocol`,
`hostname`, `pathname`, `searchParams` and `hash`. -/
structure UrlRecord where
  scheme : List Char
  host : List Char
  path : List Char
  params : List (List Char × List Char)
  fragment : Option (List Char)
deriving DecidableEq

def notColon (c : Char) : Bool := c != ':'
def hostChar (c : Char) : Bool := c != '/' && c != '?' && c != '#'
def pathChar (c : Char) : Bool := c != '?' && c != '#'
def notHash (c : Char) : Bool := c != '#'
def notEq (c : Char) : Bool := c != '='

/-- Split a character list at every occurrence of `a` (model of the `&`
splitting done by `URLSearchParams`).  The accumulator holds the current
segment in reverse. -/
def splitOnCharAux (a : Char) : List Char → List Char → List (List Char)
  | [], acc => [acc.reverse]
  | c :: cs, acc =>
    if c = a then acc.reverse :: splitOnCharAux a cs []
    else splitOnCharAux a cs (c :: acc)

def splitOnChar (a : Char) (l : List Char) : List (List Char) :=
  splitOnCharAux a l []

/-- Join segments with a single separator character (model of the
`application/x-www-form-urlencoded` serializer's `&`-joining). -/
def joinSep (a : Char) : List (List Char) → List Char
  | [] => []
  | [s] => s
  | s :: ss => s ++ a :: joinSep a ss

/-- One `key=value` pair: split a query segment at the first `=`
(the key is everything before it, the value everything after). -/
def parsePair (seg : List Char) : List Char × List Char :=
  let k := seg.takeWhile notEq
  match seg.dropWhile notEq with
  | [] => (k, [])
  | _ :: v => (k, v)

/-- `URLSearchParams` parsing: split the query on `&`, drop empty
segments, split each segment at its first `=`. -/
def parseQuery (q : List Char) : List (List Char × List Char) :=
  ((splitOnChar '&' q).filter (fun seg => !seg.isEmpty)).map parsePair

/-- Model of `new URL(s)` for hierarchical URLs.  Anything without a
`scheme://` shape is rejected (`none`), which is the branch where the JS
constructor throws and the callers fall into their `catch` blocks. -/
def parseUrl (s : String) : Option UrlRecord :=
  let cs := s.data
  let scheme := cs.takeWhile notColon
  match cs.dropWhile notColon with
  | ':' :: '/' :: '/' :: rest =>
    let host := rest.takeWhile hostChar
    let rest1 := rest.dropWhile hostChar
    let path0 := rest1.takeWhile pathChar
    let path := if path0.isEmpty then ['/'] else path0
    match rest1.dropWhile pathChar with
    | '?' :: rest3 =>
      let q := rest3.takeWhile notHash
      let fragment : Option (List Char) :=
        match rest3.dropWhile notHash with
        | [] => none
        | _ :: f => some f
      some { scheme := scheme, host := host, path := path,
             params := parseQuery q, fragment := fragment }
    | '#' :: f =>
      some { scheme := scheme, host := host, path := path,
             params := [], fragment := some f }
    | _ =>
      some { scheme := scheme, host := host, path := path,
             params := [], fragment := none }
  | _ => none

/-- Serialize the query component: empty parameter list gives no `?` at
all (the behaviour of assigning an empty `URLSearchParams` serialization
to `url.search`). -/
def serializeQuery (params : List (List Char × List Char)) : List Char :=
  match params with
  | [] => []
  | _ => '?' :: joinSep '&' (params.map fun kv => kv.1 ++ '=' :: kv.2)

/-- Model of `url.toString()` for the record. -/
def serializeUrl (r : UrlRecord) : List Char :=
  r.scheme ++ ':' :: '/' :: '/' ::
    (r.host ++ r.path ++ serializeQuery r.params ++
      (match r.fragment with | none => [] | some f => '#' :: f))

/-! ## `urlUtils.ts` : normalizeUrl / isValidUrlFormat / extractDomain -/

/-- The tracking parameters deleted by `normalizeUrl`
(`src/utils/urlUtils.ts` lines 15-19). -/
def trackingParams : List (List Char) :=
  ["utm_source", "utm_medium", "utm_campaign", "utm_term", "utm_content",
   "gclid", "fbclid", "msclkid", "_ga", "mc_cid", "mc_eid",
   "ref", "referrer", "source", "campaign"].map String.data

/-- `if (urlObj.pathname.endsWith('/') && urlObj.pathname.length > 1)
urlObj.pathname = urlObj.pathname.slice(0, -1)` — drops exactly one
trailing slash from a non-root path. -/
def stripTrailingSlash (p : List Char) : List Char :=
  if p.getLast? = some '/' ∧ 1 < p.length then p.dropLast else p

/-- The record-level effect of `normalizeUrl`'s mutations: delete the
tracking parameters, clear the fragment, strip one trailing slash. -/
def normalizeRecord (r : UrlRecord) : UrlRecord :=
  { r with
    params := r.params.filter (fun kv => !trackingParams.contains kv.1),
    fragment := none,
    path := stripTrailingSlash r.path }

/-- `normalizeUrl` (`src/utils/urlUtils.ts` lines 10-37): parse, delete
tracking params, clear hash, strip one trailing slash, serialize; on a
parse failure return the input unchanged (the `catch` branch). -/
def normalizeUrl (url : String) : String :=
  match parseUrl url with
  | some r => ⟨serializeUrl (normalizeRecord r)⟩
  | none => url

/-- `isValidUrlFormat` (`src/utils/urlUtils.ts` lines 44-51): parseable
and protocol `http:` or `https:`. -/
def isValidUrlFormat (url : String) : Bool :=
  match parseUrl url with
  | some r => r.scheme == "http".data || r.scheme == "https".data
  | none => false

/-- `s.trim()` on the character-list model (JS `trim` strips whitespace
at both ends). -/
def jsTrimList (l : List Char) : List Char :=
  ((l.dropWhile Char.isWhitespace).reverse.dropWhile Char.isWhitespace).reverse

def jsTrim (s : String) : String := ⟨jsTrimList s.data⟩

/-- `s.toLowerCase()` (ASCII case mapping). -/
def jsToLower (s : String) : String := ⟨s.data.map Char.toLower⟩

/-- `s.split(sep)` for a non-empty literal separator, scanning left to
right without overlaps.  `fuel` is the text length: each step consumes at
least one character. -/
def splitOnListAux (sep : List Char) : Nat → List Char → List Char → List (List Char)
  | 0, _, acc => [acc.reverse]
  | _ + 1, [], acc => [acc.reverse]
  | fuel + 1, c :: cs, acc =>
    if sep.isPrefixOf (c :: cs) then
      acc.reverse :: splitOnListAux sep fuel ((c :: cs).drop sep.length) []
    else splitOnListAux sep fuel cs (c :: acc)

def splitOnStr (s sep : String) : List String :=
  (splitOnListAux sep.data s.data.length s.data []).map (fun l => ⟨l⟩)

/-- `extractDomain` (`src/utils/urlUtils.ts` lines 58-64):
`new URL(url).hostname.toLowerCase()` with fallback `'unknown'`. -/
def extractDomain (url : String) : String :=
  match parseUrl url with
  | some r => jsToLower ⟨r.host⟩
  | none => "unknown"

/-! ## Generic string-scanning helpers (models of the JS regex operations) -/

/-- Case-insensitive prefix test (models the `/i` flag). -/
def ciPrefix : List Char → List Char → Bool
  | [], _ => true
  | _ :: _, [] => false
  | p :: ps, c :: cs => p.toLower == c.toLower && ciPrefix ps cs

/-- `hay.includes(needle)` on character lists. -/
def containsSubAux (needle : List Char) : List Char → Bool
  | [] => needle.isEmpty
  | c :: cs => needle.isPrefixOf (c :: cs) || containsSubAux needle cs

/-- `hay.includes(needle)` for strings. -/
def containsSub (hay needle : String) : Bool :=
  containsSubAux needle.data hay.data

/-- `s.substring(0, n)`. -/
def jsSubstring (s : String) (n : Nat) : String := ⟨s.data.take n⟩

/-! ## Data model shared with the UI (`types.ts`) -/

/-- The minimal public citation unit. -/
structure Source where
  uri : String
  title : String
deriving DecidableEq

/-! ## Citation extraction and validation (`src/utils/urlUtils.ts` lines 160-359) -/

structure CitationMatch where
  text : String
  title : String
  url : String
  startIndex : Nat
  endIndex : Nat
deriving DecidableEq

structure CitationValidationResult where
  isValid : Bool
  citationCount : Nat
  sourceCount : Nat
  extractedCitations : List CitationMatch
  missingSourcesCount : Int
  issues : List String
deriving DecidableEq

def notRBracket (c : Char) : Bool := c != ']'
def notRParen (c : Char) : Bool := c != ')'

/-- Try to match `\[([^\]]+)\]\(([^)]+)\)` at the head of `cs`; on success
return the title characters, the url characters and the remainder after
the closing parenthesis. -/
def matchCitationAt (cs : List Char) : Option (List Char × List Char × List Char) :=
  match cs with
  | '[' :: rest =>
    let t := rest.takeWhile notRBracket
    if t.isEmpty then none
    else
      match rest.dropWhile notRBracket with
      | ']' :: '(' :: rest2 =>
        let u := rest2.takeWhile notRParen
        if u.isEmpty then none
        else
          match rest2.dropWhile notRParen with
          | ')' :: rest3 => some (t, u, rest3)
          | _ => none
      | _ => none
  | _ => none

/-- Left-to-right non-overlapping scan for the citation pattern; on a
failed match the scan restarts one character further (exactly what the
global regex does).  `fuel` is the length of the scanned text: every step
consumes at least one character, so it always suffices. -/
def extractCitationsAux : Nat → List Char → Nat → List CitationMatch
  | 0, _, _ => []
  | _ + 1, [], _ => []
  | fuel + 1, c :: cs, idx =>
    match matchCitationAt (c :: cs) with
    | some (t, u, rest) =>
      let len := t.length + u.length + 4
      { text := ⟨'[' :: (t ++ ']' :: '(' :: (u ++ [')']))⟩,
        title := jsTrim ⟨t⟩, url := jsTrim ⟨u⟩,
        startIndex := idx, endIndex := idx + len } ::
        extractCitationsAux fuel rest (idx + len)
    | none => extractCitationsAux fuel cs (idx + 1)

/-- `extractInlineCitations` (`src/utils/urlUtils.ts` lines 182-199). -/
def extractInlineCitations (responseText : String) : List CitationMatch :=
  extractCitationsAux responseText.data.length responseText.data 0

/-- The alternatives of the factual-language heuristic regex
(`src/utils/urlUtils.ts` line 227). -/
def factualPhrases : List String :=
  ["according to", "based on", "shows that", "indicates that", "reports that",
   "states that", "found that", "CRA", "tax", "deduction", "income", "legislation"]

/-- JS `\w`. -/
def isWordChar (c : Char) : Bool := c.isAlpha || c.isDigit || c == '_'

/-- Does some phrase match (case-insensitively) at the head of `cs`, with a
word boundary after it?  (All phrases start and end with word characters.) -/
def phraseAt (cs : List Char) (p : List Char) : Bool :=
  ciPrefix p cs &&
    (match cs.drop p.length with
     | [] => true
     | c :: _ => !isWordChar c)

def boundaryBefore : Option Char → Bool
  | none => true
  | some c => !isWordChar c

/-- Scan for `\b(according to|...|legislation)\b` with the `/i` flag;
`prev` is the character before the current position. -/
def hasFactualAux : List Char → Option Char → Bool
  | [], _ => false
  | c :: cs, prev =>
    (boundaryBefore prev && factualPhrases.any (fun p => phraseAt (c :: cs) p.data)) ||
      hasFactualAux cs (some c)

def hasFactualLanguage (s : String) : Bool := hasFactualAux s.data none

/-- Sort key of the JS default array comparator on `[key, value]` entries:
the entry is converted to the string `key + "," + value` and compared by
code units. -/
def pairSortKey (kv : List Char × List Char) : List Char := kv.1 ++ ',' :: kv.2

/-- Lexicographic code-unit comparison (JS default sort order). -/
def lexLE : List Char → List Char → Bool
  | [], _ => true
  | _ :: _, [] => false
  | a :: as, b :: bs =>
    if a.val < b.val then true
    else if b.val < a.val then false
    else lexLE as bs

/-- `Array.from(urlObj.searchParams.entries()).sort()` — a stable sort by
the default string comparator (modelled by insertion sort, which computes
the unique stable result). -/
def sortParamsJs (ps : List (List Char × List Char)) : List (List Char × List Char) :=
  List.insertionSort (fun a b => lexLE (pairSortKey a) (pairSortKey b) = true) ps

/-- `normalizeUrlForComparison` (`src/utils/urlUtils.ts` lines 334-359):
strip one trailing slash, strip a `www.` host prefix, sort the query
parameters, drop the fragment, serialize and lowercase; on a parse
failure just lowercase the input. -/
def normalizeUrlForComparison (url : String) : String :=
  match parseUrl url with
  | some r =>
    let r1 := { r with path := stripTrailingSlash r.path }
    let r2 := { r1 with
      host := if "www.".data.isPrefixOf r1.host then r1.host.drop 4 else r1.host }
    let r3 := { r2 with params := sortParamsJs r2.params, fragment := none }
    jsToLower ⟨serializeUrl r3⟩
  | none => jsToLower url

/-- JS `Set` built by repeated insertion: keeps first occurrences. -/
def jsSetList (l : List String) : List String :=
  l.foldl (fun acc s => if acc.contains s then acc else acc ++ [s]) []

/-- The `invalidCitations` filter of `validateCitations`
(`src/utils/urlUtils.ts` lines 236-239): a citation is flagged when its
URL matches no available source exactly and no available source after
comparison-normalization. -/
def invalidCitationsOf (extractedCitations : List CitationMatch)
    (availableSources : List Source) : List CitationMatch :=
  let availableUrls := availableSources.map (fun s => s.uri)
  let normalizedAvailableUrls := availableSources.map (fun s => normalizeUrlForComparison s.uri)
  extractedCitations.filter (fun c =>
    !availableUrls.contains c.url &&
      !normalizedAvailableUrls.contains (normalizeUrlForComparison c.url))

/-- `validateCitations` (`src/utils/urlUtils.ts` lines 208-290). -/
def validateCitations (responseText : String) (availableSources : List Source)
    (minCitationsRequired : Nat := 2) : CitationValidationResult :=
  let extractedCitations := extractInlineCitations responseText
  let uniqueCitationUrls := jsSetList (extractedCitations.map (fun c => c.url))
  let citationCount := extractedCitations.length
  let sourceCount := uniqueCitationUrls.length
  let issues1 : List String :=
    if 1 < availableSources.length ∧ citationCount < minCitationsRequired then
      ["Insufficient citations: found " ++ toString citationCount ++
        ", required minimum " ++ toString minCitationsRequired ++
        " when multiple sources available"]
    else []
  let hasFactualContent := hasFactualLanguage responseText
  let issues2 : List String :=
    if hasFactualContent = true ∧ citationCount = 0 then
      ["Response contains factual claims but no citations provided"]
    else []
  let invalidCitations := invalidCitationsOf extractedCitations availableSources
  let issues3 : List String :=
    if 0 < invalidCitations.length then
      [toString invalidCitations.length ++ " citations reference URLs not in provided sources"]
    else []
  let paragraphs := (splitOnStr responseText "\n\n").filter (fun p => 0 < (jsTrim p).length)
  let paragraphsWithFacts := paragraphs.filter (fun p => hasFactualLanguage p)
  let paragraphsWithCitations :=
    paragraphs.filter (fun p => !(extractInlineCitations p).isEmpty)
  let issues4 : List String :=
    if 0 < paragraphsWithFacts.length ∧ paragraphsWithCitations.length = 0 then
      ["Factual paragraphs exist but no paragraphs contain citations"]
    else []
  let issues := issues1 ++ issues2 ++ issues3 ++ issues4
  let availableUrls := availableSources.map (fun s => s.uri)
  let missingSourcesCount : Int :=
    max 0 ((availableSources.length : Int) -
      (jsSetList ((extractedCitations.filter
        (fun c => availableUrls.contains c.url)).map (fun c => c.url))).length)
  let isValid := issues.isEmpty &&
    (availableSources.length == 0 ||
      decide (min minCitationsRequired availableSources.length ≤ citationCount))
  { isValid := isValid, citationCount := citationCount, sourceCount := sourceCount,
    extractedCitations := extractedCitations,
    missingSourcesCount := missingSourcesCount, issues := issues }

/-! ## Network and model-call oracles

Each kind of outbound call in `braveSearchService.ts` is modelled by an
oracle function in a `NetEnv` record.  A `fetch` either rejects
(`error`: network failure, timeout, abort) or resolves to a response with
its `ok` flag, status, final `url` after redirects, content type and body
text.  A model call either rejects or resolves with an `ok` flag and the
completion text. -/

inductive FetchOutcome
  | error
  | response (ok : Bool) (status : Nat) (statusText : String) (url : String)
      (contentType : String) (body : String)
deriving DecidableEq

inductive AiOutcome
  | failure
  | response (ok : Bool) (content : String)
deriving DecidableEq

/-- A raw Brave web-search hit (`braveSearchService.ts` lines 141-146;
the optional `date` field is never read). -/
structure BraveSearchResult where
  title : String
  url : String
  description : String
deriving DecidableEq

/-- Parsed body of a Brave search response (`data.web?.results`). -/
structure BraveSearchResponse where
  web : Option (List BraveSearchResult)
deriving DecidableEq

/-- Outcome of the Brave API call: network failure, or a response with an
`ok` flag and a body (`none` models a body that fails JSON parsing). -/
inductive BraveOutcome
  | networkError
  | response (ok : Bool) (status : Nat) (body : Option BraveSearchResponse)
deriving DecidableEq

/-- All the outbound calls the service makes.  `braveKey` models
`process.env.BRAVE_SEARCH_API_KEY` (`none` covers the falsy check on an
absent or blank key). -/
structure NetEnv where
  braveKey : Option String
  brave : String → Nat → BraveOutcome
  fetchHead : String → FetchOutcome
  fetchRangedGet : String → FetchOutcome
  fetchTitleGet : String → FetchOutcome
  fetchPage : String → FetchOutcome
  aiQueries : String → AiOutcome
  aiClaims : String → String → String → AiOutcome
  aiAuthority : String → String → String → AiOutcome

/-! ## `verifySourceUrl` (`braveSearchService.ts` lines 14-139) -/

inductive VerificationStatus
  | verified
  | partiallyVerified -- PARTIAL in the source; that word is a reserved keyword here
  | failed
  | pending
deriving DecidableEq

structure VerificationOutcome where
  isValid : Bool
  finalUrl : String
  domain : String
  status : VerificationStatus
  contentType : Option String
  title : Option String
deriving DecidableEq

/-- The `catch` branch of `verifySourceUrl` (lines 124-138): the original
URL is kept, in normalized form. -/
def failedVerification (url : String) : VerificationOutcome :=
  { isValid := false, finalUrl := normalizeUrl url, domain := extractDomain url,
    status := .failed, contentType := none, title := none }

/-- Try to match `<title[^>]*>([^<]+)<\/title>` (case-insensitive) at the
head of `cs`. -/
def matchTitleAt (cs : List Char) : Option (List Char) :=
  if ciPrefix "<title".data cs then
    let after := cs.drop 6
    match after.dropWhile (fun ch => ch != '>') with
    | '>' :: rest =>
      let content := rest.takeWhile (fun ch => ch != '<')
      if content.isEmpty then none
      else if ciPrefix "</title>".data (rest.dropWhile (fun ch => ch != '<')) then
        some content
      else none
    | _ => none
  else none

/-- Scan the whole text for the first title match.  `fuel` is the text
length. -/
def findTitleAux : Nat → List Char → Option (List Char)
  | 0, _ => none
  | _ + 1, [] => none
  | fuel + 1, c :: cs =>
    match matchTitleAt (c :: cs) with
    | some t => some t
    | none => findTitleAux fuel cs

/-- `html.match(/<title[^>]*>([^<]+)<\/title>/i)` followed by
`titleMatch[1].trim().substring(0, 200)` with `''` fallback. -/
def extractTitle (html : String) : String :=
  match findTitleAux html.data.length html.data with
  | some t => jsSubstring (jsTrim ⟨t⟩) 200
  | none => ""

/-- `verifySourceUrl`: format check, HEAD request, GET fallback on
403/405, optional title fetch for HTML, re-normalization of the final
URL; any unrecoverable failure falls into `failedVerification`. -/
def verifySourceUrl (env : NetEnv) (url : String) : VerificationOutcome :=
  if isValidUrlFormat url = false then failedVerification url
  else
    let normalizedUrl := normalizeUrl url
    match env.fetchHead normalizedUrl with
    | .error => failedVerification url
    | .response ok status _ respUrl contentType _ =>
      -- `let finalUrl = headResponse.url || normalizedUrl`
      let finalUrl0 := if respUrl = "" then normalizedUrl else respUrl
      -- HEAD blocked with 405/403: retry once with a ranged GET
      let fallback :=
        if ok = false ∧ (status = 405 ∨ status = 403) then
          match env.fetchRangedGet normalizedUrl with
          | .error => (finalUrl0, ok)
          | .response gok _ _ gurl _ _ =>
            if gok then ((if gurl = "" then normalizedUrl else gurl), true)
            else (finalUrl0, ok)
        else (finalUrl0, ok)
      let finalUrl := fallback.1
      let isValid := fallback.2
      if isValid = false then failedVerification url
      else
        let domain := extractDomain finalUrl
        let title :=
          if containsSub contentType "text/html" then
            match env.fetchTitleGet finalUrl with
            | .error => ""
            | .response tok _ _ _ _ html => if tok then extractTitle html else ""
          else ""
        { isValid := true, finalUrl := normalizeUrl finalUrl, domain := domain,
          status := .verified, contentType := some contentType, title := some title }

/-! ## `searchWeb` (`braveSearchService.ts` lines 231-292) -/

/-- Internal working record (`braveSearchService.ts` lines 158-163). -/
structure EnhancedSource where
  uri : String
  title : String
  url : String
  description : String
  domain : String
  isValidated : Bool
deriving DecidableEq

/-- Title suffixes stripped for citation display (lines 179-187). -/
def titleSuffixes : List String :=
  [" - Canada.ca", " | Canada Revenue Agency", " - CRA", " | CRA",
   " - Government of Canada", " | Government of Canada", " - Canada"]

/-- `title.replace(/ - Canada\.ca$/, '')` and friends: drop the suffix if
present at the end. -/
def removeSuffix (s suffix : String) : String :=
  if suffix.data.isSuffixOf s.data then ⟨s.data.take (s.data.length - suffix.data.length)⟩
  else s

/-- The title clean-up of `mapBraveResultToEnhancedSource`
(lines 175-201). -/
def enhanceTitle (raw : String) : String :=
  let t1 := titleSuffixes.foldl (fun acc suf => removeSuffix acc suf) (jsTrim raw)
  let t2 := if t1.data.length < 3 then raw else t1
  if 100 < t2.data.length then ⟨t2.data.take 97⟩ ++ "..." else t2

/-- `mapBraveResultToEnhancedSource` (lines 170-211). -/
def mapBraveResultToEnhancedSource (result : BraveSearchResult) : EnhancedSource :=
  let normalizedUrl := normalizeUrl result.url
  { uri := normalizedUrl, title := enhanceTitle result.title, url := normalizedUrl,
    description := result.description, domain := extractDomain normalizedUrl,
    isValidated := false }

/-- `mapEnhancedSourceToSource` (lines 218-223). -/
def mapEnhancedSourceToSource (e : EnhancedSource) : Source :=
  { uri := e.uri, title := e.title }

/-- `searchWeb`: throws when the API key is falsy; otherwise any
transport error, non-2xx response or malformed body falls into the
`catch` that returns `[]`; results are mapped and validated
per-candidate. -/
def searchWeb (env : NetEnv) (query : String) (count : Nat := 10) :
    Except String (List Source) :=
  match env.braveKey with
  | none => .error "BRAVE_SEARCH_API_KEY environment variable not set."
  | some _ =>
    match env.brave query count with
    | .networkError => .ok []
    | .response ok _ body =>
      if ok = false then .ok []
      else
        match body with
        | none => .ok []
        | some data =>
          match data.web with
          | none => .ok []
          | some results =>
            .ok (results.map fun result =>
              let enhancedSource := mapBraveResultToEnhancedSource result
              let validation := verifySourceUrl env result.url
              mapEnhancedSourceToSource
                { enhancedSource with
                  uri := validation.finalUrl
                  isValidated := validation.isValid
                  domain := validation.domain })

/-! ## `generateTargetedSearchQueries` (lines 309-351) -/

/-- `q.replace(/^\d+\.?\s*/, '')`. -/
def stripEnumMarker (s : String) : String :=
  let l := s.data
  let ds := l.takeWhile Char.isDigit
  if ds.isEmpty then s
  else
    let rest := l.drop ds.length
    let rest2 := match rest with
      | '.' :: r => r
      | r => r
    ⟨rest2.dropWhile Char.isWhitespace⟩

/-- The deterministic fallback queries (lines 345-350). -/
def fallbackQueries (query : String) : List String :=
  ["\"" ++ query ++ "\" specific guide document",
   query ++ " detailed explanation instructions",
   query ++ " form requirements process",
   query ++ " specific rules regulations"]

def generateTargetedSearchQueries (env : NetEnv) (query : String) : List String :=
  match env.aiQueries query with
  | .response true content =>
    (((splitOnStr content "\n").filter (fun q => 0 < (jsTrim q).data.length)).map
      (fun q => jsTrim (stripEnumMarker q))).take 3
  | _ => fallbackQueries query

/-! ## `extractAndAnalyzeContent` (lines 359-422) -/

/-- Find the earliest case-insensitive occurrence of `close` with no
newline before it (the lazy `.*?` of the block regex cannot cross a
newline); return the remainder after it. -/
def findCloseTag (close : List Char) : Nat → List Char → Option (List Char)
  | 0, _ => none
  | _ + 1, [] => none
  | fuel + 1, c :: cs =>
    if ciPrefix close (c :: cs) then some ((c :: cs).drop close.length)
    else if c = '\n' then none
    else findCloseTag close fuel cs

/-- One `html.replace(/<tag[^>]*>.*?<\/tag>/gi, '')` pass. -/
def removeBlocksAux (tagOpen tagClose : List Char) : Nat → List Char → List Char
  | 0, _ => []
  | _ + 1, [] => []
  | fuel + 1, c :: cs =>
    if ciPrefix tagOpen (c :: cs) then
      let afterOpen := (c :: cs).drop tagOpen.length
      match afterOpen.dropWhile (fun ch => ch != '>') with
      | '>' :: rest =>
        match findCloseTag tagClose rest.length rest with
        | some rest2 => removeBlocksAux tagOpen tagClose fuel rest2
        | none => c :: removeBlocksAux tagOpen tagClose fuel cs
      | _ => c :: removeBlocksAux tagOpen tagClose fuel cs
    else c :: removeBlocksAux tagOpen tagClose fuel cs

def removeBlocks (tag : String) (html : List Char) : List Char :=
  removeBlocksAux ("<" ++ tag).data ("</" ++ tag ++ ">").data html.length html

/-- `html.replace(/<[^>]+>/g, ' ')`. -/
def stripTagsAux : Nat → List Char → List Char
  | 0, _ => []
  | _ + 1, [] => []
  | fuel + 1, c :: cs =>
    if c = '<' then
      if (cs.takeWhile (fun ch => ch != '>')).isEmpty then c :: stripTagsAux fuel cs
      else
        match cs.dropWhile (fun ch => ch != '>') with
        | '>' :: rest => ' ' :: stripTagsAux fuel rest
        | _ => c :: stripTagsAux fuel cs
    else c :: stripTagsAux fuel cs

/-- `text.replace(/\s+/g, ' ')`. -/
def collapseWsAux : Nat → List Char → List Char
  | 0, _ => []
  | _ + 1, [] => []
  | fuel + 1, c :: cs =>
    if c.isWhitespace then ' ' :: collapseWsAux fuel (cs.dropWhile Char.isWhitespace)
    else c :: collapseWsAux fuel cs

/-- The text-extraction chain of `extractAndAnalyzeContent`
(lines 383-392). -/
def extractTextContent (html : String) : String :=
  let l1 := removeBlocks "script" html.data
  let l2 := removeBlocks "style" l1
  let l3 := removeBlocks "nav" l2
  let l4 := removeBlocks "header" l3
  let l5 := removeBlocks "footer" l4
  let l6 := removeBlocks "aside" l5
  let l7 := stripTagsAux l6.length l6
  let l8 := collapseWsAux l7.length l7
  jsTrim ⟨l8⟩

/-- `text.split(/\s+/)`: a run of whitespace is one separator; a leading
or trailing run produces an empty field (so the empty string splits to
`[""]`, giving word count 1). -/
def jsSplitWsAux : Nat → List Char → List Char → List String
  | 0, _, acc => [⟨acc.reverse⟩]
  | _ + 1, [], acc => [⟨acc.reverse⟩]
  | fuel + 1, c :: cs, acc =>
    if c.isWhitespace then
      ⟨acc.reverse⟩ :: jsSplitWsAux fuel (cs.dropWhile Char.isWhitespace) []
    else jsSplitWsAux fuel cs (c :: acc)

def jsSplitWs (s : String) : List String := jsSplitWsAux s.data.length s.data []

structure ContentAnalysis where
  content : String
  wordCount : Nat
  isSpecific : Bool
  contentQuality : ℚ
deriving DecidableEq

/-- The `catch` result of `extractAndAnalyzeContent` (lines 414-421). -/
def zeroAnalysis : ContentAnalysis :=
  { content := "", wordCount := 0, isSpecific := false, contentQuality := 0 }

/-- `extractAndAnalyzeContent`: fetch the page, strip it to text, count
words, assess specificity, clamp the quality score to `[0, 100]`,
truncate the stored content to 2000 characters; every failure returns the
zeroed analysis. -/
def extractAndAnalyzeContent (env : NetEnv) (url : String) : ContentAnalysis :=
  match env.fetchPage url with
  | .error => zeroAnalysis
  | .response ok _ _ _ _ html =>
    if ok = false then zeroAnalysis
    else
      let textContent := extractTextContent html
      let wordCount := (jsSplitWs textContent).length
      let lower := jsToLower textContent
      let isSpecific := !containsSub lower "coming soon" &&
        !containsSub lower "under construction" && decide (50 < wordCount)
      let contentQuality : ℚ :=
        min 100 (max 0 ((wordCount : ℚ) / 50 + (if isSpecific then 20 else 0)))
      { content := jsSubstring textContent 2000, wordCount := wordCount,
        isSpecific := isSpecific, contentQuality := contentQuality }

/-! ## The AI scorers (lines 431-512) -/

def digitVal (c : Char) : Nat := c.toNat - 48

def parseDigits (l : List Char) : Nat :=
  l.foldl (fun acc c => acc * 10 + digitVal c) 0

/-- JS `parseInt` on text: optional sign, then leading decimal digits;
`none` models `NaN`. -/
def parseIntJs (s : String) : Option Int :=
  match s.data with
  | '-' :: rest =>
    let ds := rest.takeWhile Char.isDigit
    if ds.isEmpty then none else some (-(parseDigits ds : Int))
  | '+' :: rest =>
    let ds := rest.takeWhile Char.isDigit
    if ds.isEmpty then none else some (parseDigits ds : Int)
  | l =>
    let ds := l.takeWhile Char.isDigit
    if ds.isEmpty then none else some (parseDigits ds : Int)

/-- `Math.max(0, Math.min(100, score))`. -/
def clampScore (n : Int) : Int := max 0 (min 100 n)

/-- `verifyContentClaims` (lines 431-463): parse the completion as an
integer, clamp to `[0, 100]`, neutral 50 on any failure. -/
def verifyContentClaims (env : NetEnv) (content query title : String) : Int :=
  match env.aiClaims content query title with
  | .response true text =>
    match parseIntJs (jsTrim text) with
    | none => 50
    | some n => clampScore n
  | _ => 50

/-- The deterministic domain table of `verifySourceAuthority`
(lines 504-511). -/
def domainAuthorityScore (domain : String) : Int :=
  if containsSub domain "canada.ca" || containsSub domain "cra-arc.gc.ca" then 80
  else if containsSub domain ".gov." || containsSub domain "canlii.org" then 75
  else if containsSub domain "cpacanada.ca" then 70
  else if containsSub domain "kpmg." || containsSub domain "pwc." ||
    containsSub domain "deloitte." || containsSub domain "ey." then 65
  else if containsSub domain ".edu" then 60
  else if containsSub domain "taxplanningguide." || containsSub domain "taxtips." then 55
  else 50

/-- `verifySourceAuthority` (lines 472-512).  The domain fallback runs
`new URL(url).hostname` outside any try/catch, so an unparseable URL
makes the whole call reject (`error`). -/
def verifySourceAuthority (env : NetEnv) (url title content : String) :
    Except Unit Int :=
  match env.aiAuthority url title content with
  | .response true text =>
    .ok (match parseIntJs (jsTrim text) with
         | none => 50
         | some n => clampScore n)
  | _ =>
    match parseUrl url with
    | none => .error ()
    | some r => .ok (domainAuthorityScore (jsToLower ⟨r.host⟩))

/-! ## `searchTaxResources` (lines 520-626) -/

/-- Decimal digits of a natural number, as JS prints them in a template
literal. -/
def natDigitsAux : Nat → Nat → List Char
  | 0, _ => []
  | fuel + 1, n =>
    if n < 10 then [Char.ofNat (48 + n)]
    else natDigitsAux fuel (n / 10) ++ [Char.ofNat (48 + n % 10)]

def natDigitsJs (n : Nat) : List Char := natDigitsAux (n + 1) n

/-- `${overallScore}` for an integer score. -/
def intReprJs (i : Int) : List Char :=
  if i < 0 then '-' :: natDigitsJs i.natAbs else natDigitsJs i.toNat

/-- `` `[Verified: ${overallScore}%]` `` (line 604). -/
def mkVerifiedDescription (score : Int) : String :=
  "[Verified: " ++ (⟨intReprJs score⟩ : String) ++ "%]"

def verifiedPattern : List Char := "Verified: ".data

/-- `parseInt(description?.match(/Verified: (\d+)%/)?.[1] || '0')`
(lines 620-621): find the pattern, read the digit run before a `%`,
default 0. -/
def parseVerifiedScoreAux : List Char → Nat
  | [] => 0
  | c :: cs =>
    if verifiedPattern.isPrefixOf (c :: cs) then
      let after := (c :: cs).drop verifiedPattern.length
      let ds := after.takeWhile Char.isDigit
      if ds.isEmpty then parseVerifiedScoreAux cs
      else
        match after.drop ds.length with
        | '%' :: _ => parseDigits ds
        | _ => parseVerifiedScoreAux cs
    else parseVerifiedScoreAux cs

def parseVerifiedScore (description : String) : Nat :=
  parseVerifiedScoreAux description.data

/-- The sort key used by the final `.sort((a, b) => bScore - aScore)`. -/
def scoreOf (e : EnhancedSource) : Nat := parseVerifiedScore e.description

/-- `a` may come before `b` under the descending comparator. -/
def scoreGE (a b : EnhancedSource) : Prop := scoreOf b ≤ scoreOf a

instance : DecidableRel scoreGE := fun a b => Nat.decLe (scoreOf b) (scoreOf a)

instance : IsTotal EnhancedSource scoreGE :=
  ⟨fun a b => Nat.le_total (scoreOf b) (scoreOf a)⟩

instance : IsTrans EnhancedSource scoreGE :=
  ⟨fun _ _ _ h1 h2 => Nat.le_trans h2 h1⟩

/-- The mutable state of the aggregation loop: the accepted sources (in
insertion order) and the `seenUrls` set (in insertion order). -/
structure AggState where
  verifiedSources : List EnhancedSource
  seenUrls : List String
deriving DecidableEq

/-- `Math.round`, which is `⌊x + 1/2⌋`. -/
def jsRound (q : ℚ) : Int := round q

/-- `new URL(searchResult.uri).hostname` with `'unknown'` fallback
(lines 544-550). -/
def domainOf (uri : String) : String :=
  match parseUrl uri with
  | some r => ⟨r.host⟩
  | none => "unknown"

/-- The `EnhancedSource` rebuilt from a `searchWeb` result at the top of
the loop body (lines 539-552). -/
def initialEnhanced (searchResult : Source) : EnhancedSource :=
  { uri := searchResult.uri, title := searchResult.title, url := searchResult.uri,
    description := "", domain := domainOf searchResult.uri, isValidated := true }

/-- One iteration of the inner result loop (lines 536-611).  The
`Except` layer models the one statement that can reject inside the loop:
the authority fallback's `new URL(url)` on an unparseable URL; an
`error` aborts the remaining results of the current search query (the
per-query `catch`) while keeping the state mutations already made. -/
def processResult (env : NetEnv) (userQuery : String) (count : Nat)
    (st : AggState) (searchResult : Source) : Except AggState AggState :=
  let e0 := initialEnhanced searchResult
  if st.seenUrls.contains e0.url || decide (count ≤ st.verifiedSources.length) then .ok st
  else
    let st1 : AggState := { st with seenUrls := st.seenUrls ++ [e0.url] }
    -- Layer 1: URL verification
    let urlVerification := verifySourceUrl env e0.url
    if urlVerification.isValid = false then .ok st1
    else
      let e1 := { e0 with
        uri := urlVerification.finalUrl
        url := urlVerification.finalUrl
        domain := urlVerification.domain }
      -- Layer 2: content extraction and analysis
      let contentAnalysis := extractAndAnalyzeContent env urlVerification.finalUrl
      if contentAnalysis.isSpecific = false || decide (contentAnalysis.contentQuality < 20) then
        .ok st1
      else
        -- Layer 3: content-claim verification
        let claimScore := verifyContentClaims env contentAnalysis.content userQuery e1.title
        -- Layer 4: source-authority verification
        match verifySourceAuthority env urlVerification.finalUrl e1.title
            contentAnalysis.content with
        | .error _ => .error st1
        | .ok authorityScore =>
          let overallScore := jsRound ((claimScore : ℚ) * 0.4 +
            (authorityScore : ℚ) * 0.2 + contentAnalysis.contentQuality * 0.4)
          if decide (20 ≤ claimScore) && decide (10 ≤ authorityScore) &&
              decide (40 ≤ overallScore) then
            let e2 := { e1 with description := mkVerifiedDescription overallScore }
            .ok { st1 with verifiedSources := st1.verifiedSources ++ [e2] }
          else .ok st1

/-- The inner `for (const searchResult of searchResults)` loop; a thrown
error skips the remaining results of this query only. -/
def processResults (env : NetEnv) (userQuery : String) (count : Nat) :
    AggState → List Source → AggState
  | st, [] => st
  | st, r :: rs =>
    match processResult env userQuery count st r with
    | .ok st' => processResults env userQuery count st' rs
    | .error st' => st'

/-- The outer `for (const searchQuery of searchQueries)` loop
(lines 531-615); a failed `searchWeb` call skips that query. -/
def aggFinalState (env : NetEnv) (query : String) (count : Nat) : AggState :=
  (generateTargetedSearchQueries env query).foldl
    (fun st searchQuery =>
      match searchWeb env searchQuery ((count + 1) / 2) with
      | .error _ => st
      | .ok searchResults => processResults env query count st searchResults)
    { verifiedSources := [], seenUrls := [] }

/-- The accepted sources after the final stable descending sort and the
`slice(0, count)` truncation (lines 618-624). -/
def rankedSources (env : NetEnv) (query : String) (count : Nat) : List EnhancedSource :=
  (List.insertionSort scoreGE (aggFinalState env query count).verifiedSources).take count

/-- `searchTaxResources` (lines 520-626). -/
def searchTaxResources (env : NetEnv) (query : String) (count : Nat := 8) : List Source :=
  (rankedSources env query count).map mapEnhancedSourceToSource

/-! ## Concrete environments used to exercise the definitions -/

/-- An environment with no credentials and every outbound call failing. -/
def deadEnv : NetEnv :=
  { braveKey := none
    brave := fun _ _ => .networkError
    fetchHead := fun _ => .error
    fetchRangedGet := fun _ => .error
    fetchTitleGet := fun _ => .error
    fetchPage := fun _ => .error
    aiQueries := fun _ => .failure
    aiClaims := fun _ _ _ => .failure
    aiAuthority := fun _ _ _ => .failure }

/-- A keyed environment whose search transport fails. -/
def failFetchEnv : NetEnv := { deadEnv with braveKey := some "k" }

/-- A page body of 51 whitespace-separated words (enough to count as
specific content). -/
def cexBody : String := ⟨List.flatten (List.replicate 51 ['t', ' '])⟩

/-- An environment where two distinct search candidates
(`…/one` and `…/two`) first verify to the distinct URLs `…/r1` and
`…/r2`, and on re-verification both of those redirect to the same final
URL `…/final`, which carries acceptable content and scores. -/
def cexEnv : NetEnv :=
  { braveKey := some "k"
    brave := fun _ _ => .response true 200 (some ⟨some
      [⟨"T1", "https://a.com/one", "d1"⟩, ⟨"T2", "https://a.com/two", "d2"⟩]⟩)
    fetchHead := fun u =>
      if u = "https://a.com/one" then .response true 200 "" "https://a.com/r1" "" ""
      else if u = "https://a.com/two" then .response true 200 "" "https://a.com/r2" "" ""
      else if u = "https://a.com/r1" then .response true 200 "" "https://a.com/final" "" ""
      else if u = "https://a.com/r2" then .response true 200 "" "https://a.com/final" "" ""
      else .error
    fetchRangedGet := fun _ => .error
    fetchTitleGet := fun _ => .error
    fetchPage := fun u =>
      if u = "https://a.com/final" then .response true 200 "" u "" cexBody else .error
    aiQueries := fun _ => .failure
    aiClaims := fun _ _ _ => .response true "80"
    aiAuthority := fun _ _ _ => .response true "70" }

/-- Did the page fetch of `extractAndAnalyzeContent` fail (reject or
non-2xx)? -/
def fetchFailed : FetchOutcome → Bool
  | .error => true
  | .response ok _ _ _ _ _ => !ok

/-- Did the Brave API call fail (transport error, non-2xx, or a body
that does not parse)? -/
def braveRequestFailed : BraveOutcome → Bool
  | .networkError => true
  | .response ok _ body => !ok || body.isNone

/-- Is the HEAD/GET verification of a (normalized) URL unrecoverable:
the HEAD rejects, or it is non-2xx and the ranged-GET fallback (only
attempted on 403/405) does not produce a 2xx either? -/
def headUnrecoverable (env : NetEnv) (nu : String) : Bool :=
  match env.fetchHead nu with
  | .error => true
  | .response ok status _ _ _ _ =>
    if ok then false
    else if status = 405 || status = 403 then
      match env.fetchRangedGet nu with
      | .error => true
      | .response gok _ _ _ _ _ => !gok
    else true

/-- The state after a loop iteration, whether it completed (`ok`) or
threw into the per-query catch (`error`). -/
def aggStateOf : Except AggState AggState → AggState
  | .ok st => st
  | .error st => st

/-- The well-formedness facts that hold of every record produced by
`parseUrl`: each component is free of the delimiters that end it during
parsing, and the path is a non-empty slash-led segment. -/
structure ParsedShape (r : UrlRecord) : Prop where
  scheme_ok : ∀ c ∈ r.scheme, c ≠ ':'
  host_ok : ∀ c ∈ r.host, c ≠ '/' ∧ c ≠ '?' ∧ c ≠ '#'
  path_ne : r.path ≠ []
  path_head : r.path.head? = some '/'
  path_ok : ∀ c ∈ r.path, c ≠ '?' ∧ c ≠ '#'
  key_ok : ∀ kv ∈ r.params, ∀ c ∈ kv.1, c ≠ '=' ∧ c ≠ '&' ∧ c ≠ '#'
  val_ok : ∀ kv ∈ r.params, ∀ c ∈ kv.2, c ≠ '&' ∧ c ≠ '#'

/-! # Theorems -/

attribute [local semireducible] Rat.add Rat.mul Rat.inv Rat.ofScientific Rat.sub

/-! ## List-scanning helper lemmas for the URL parser -/

theorem takeWhile_append_all {α : Type} {p : α → Bool} {l₁ l₂ : List α}
    (h1 : ∀ c ∈ l₁, p c = true) (h2 : ∀ c, l₂.head? = some c → p c = false) :
    (l₁ ++ l₂).takeWhile p = l₁ := by
  induction l₁ with
  | nil =>
    cases l₂ with
    | nil => rfl
    | cons c cs => simp [List.takeWhile_cons, h2 c rfl]
  | cons a l ih =>
    rw [List.cons_append, List.takeWhile_cons, if_pos (h1 a (List.mem_cons_self a l))]
    rw [ih (fun c hc => h1 c (List.mem_cons_of_mem a hc))]

theorem dropWhile_append_all {α : Type} {p : α → Bool} {l₁ l₂ : List α}
    (h1 : ∀ c ∈ l₁, p c = true) (h2 : ∀ c, l₂.head? = some c → p c = false) :
    (l₁ ++ l₂).dropWhile p = l₂ := by
  induction l₁ with
  | nil =>
    cases l₂ with
    | nil => rfl
    | cons c cs => simp [List.dropWhile_cons, h2 c rfl]
  | cons a l ih =>
    rw [List.cons_append, List.dropWhile_cons, if_pos (h1 a (List.mem_cons_self a l))]
    exact ih (fun c hc => h1 c (List.mem_cons_of_mem a hc))

theorem takeWhile_all {α : Type} {p : α → Bool} {l : List α}
    (h : ∀ c ∈ l, p c = true) : l.takeWhile p = l := by
  have := @takeWhile_append_all α p l [] h (by intro c hc; cases hc)
  simpa using this

theorem dropWhile_all {α : Type} {p : α → Bool} {l : List α}
    (h : ∀ c ∈ l, p c = true) : l.dropWhile p = [] := by
  have := @dropWhile_append_all α p l [] h (by intro c hc; cases hc)
  simpa using this

theorem head_of_takeWhile {α : Type} {p : α → Bool} {l t : List α} {c : α}
    (h : l.takeWhile p = c :: t) : l.head? = some c ∧ p c = true := by
  cases l with
  | nil => simp at h
  | cons a l' =>
    rw [List.takeWhile_cons] at h
    by_cases hp : p a = true
    · rw [if_pos hp] at h
      obtain ⟨rfl, -⟩ := List.cons.inj h
      exact ⟨rfl, hp⟩
    · rw [if_neg hp] at h
      cases h

theorem head_of_dropWhile {α : Type} {p : α → Bool} {l : List α} {c : α}
    (h : (l.dropWhile p).head? = some c) : p c = false := by
  induction l with
  | nil => simp at h
  | cons a l' ih =>
    rw [List.dropWhile_cons] at h
    by_cases hp : p a = true
    · rw [if_pos hp] at h
      exact ih h
    · rw [if_neg hp] at h
      simp only [List.head?_cons, Option.some.injEq] at h
      cases h
      exact Bool.not_eq_true _ ▸ Bool.of_not_eq_true hp

/-! ## Round-trip lemmas for the query splitter -/

theorem splitOnCharAux_append {a : Char} {seg : List Char} (rest acc : List Char)
    (hseg : ∀ c ∈ seg, c ≠ a) :
    splitOnCharAux a (seg ++ rest) acc = splitOnCharAux a rest (seg.reverse ++ acc) := by
  induction seg generalizing acc with
  | nil => simp
  | cons c seg' ih =>
    rw [List.cons_append, splitOnCharAux,
      if_neg (hseg c (List.mem_cons_self c seg')),
      ih _ (fun x hx => hseg x (List.mem_cons_of_mem c hx))]
    simp

theorem splitOnCharAux_cons (a : Char) (rest acc : List Char) :
    splitOnCharAux a (a :: rest) acc = acc.reverse :: splitOnCharAux a rest [] := by
  simp [splitOnCharAux]

theorem splitOnChar_joinSep (a : Char) (segs : List (List Char)) (hne : segs ≠ [])
    (hseg : ∀ seg ∈ segs, ∀ c ∈ seg, c ≠ a) :
    splitOnChar a (joinSep a segs) = segs := by
  induction segs with
  | nil => exact absurd rfl hne
  | cons s ss ih =>
    cases ss with
    | nil =>
      show splitOnCharAux a (joinSep a [s]) [] = [s]
      have : joinSep a [s] = s ++ [] := by simp [joinSep]
      rw [this, splitOnCharAux_append [] [] (hseg s (List.mem_cons_self s []))]
      simp [splitOnCharAux]
    | cons s2 ss2 =>
      show splitOnCharAux a (joinSep a (s :: s2 :: ss2)) [] = s :: s2 :: ss2
      have hj : joinSep a (s :: s2 :: ss2) = s ++ a :: joinSep a (s2 :: ss2) := by
        simp [joinSep]
      rw [hj, splitOnCharAux_append _ _ (hseg s (List.mem_cons_self s _)),
        splitOnCharAux_cons]
      simp only [List.append_nil, List.reverse_reverse]
      rw [show splitOnCharAux a (joinSep a (s2 :: ss2)) [] =
          splitOnChar a (joinSep a (s2 :: ss2)) from rfl]
      rw [ih (by simp) (fun seg h => hseg seg (List.mem_cons_of_mem s h))]

theorem splitOnCharAux_shape (a : Char) :
    ∀ (l acc : List Char), ∀ seg ∈ splitOnCharAux a l acc, ∀ c ∈ seg,
      c ∈ acc ∨ (c ∈ l ∧ c ≠ a) := by
  intro l
  induction l with
  | nil =>
    intro acc seg hseg c hc
    simp only [splitOnCharAux, List.mem_singleton] at hseg
    subst hseg
    exact Or.inl (List.mem_reverse.mp hc)
  | cons x xs ih =>
    intro acc seg hseg c hc
    rw [splitOnCharAux] at hseg
    by_cases hx : x = a
    · rw [if_pos hx] at hseg
      rcases List.mem_cons.mp hseg with hseg | hseg
      · subst hseg
        exact Or.inl (List.mem_reverse.mp hc)
      · rcases ih [] seg hseg c hc with hacc | ⟨hmem, hne⟩
        · cases hacc
        · exact Or.inr ⟨List.mem_cons_of_mem x hmem, hne⟩
    · rw [if_neg hx] at hseg
      rcases ih (x :: acc) seg hseg c hc with hacc | ⟨hmem, hne⟩
      · rcases List.mem_cons.mp hacc with rfl | hacc
        · exact Or.inr ⟨List.mem_cons_self c xs, hx⟩
        · exact Or.inl hacc
      · exact Or.inr ⟨List.mem_cons_of_mem x hmem, hne⟩

theorem splitOnChar_shape {a : Char} {l seg : List Char} (hseg : seg ∈ splitOnChar a l)
    {c : Char} (hc : c ∈ seg) : c ∈ l ∧ c ≠ a := by
  rcases splitOnCharAux_shape a l [] seg hseg c hc with h | h
  · cases h
  · exact h

theorem mem_joinSep {a : Char} {segs : List (List Char)} {c : Char}
    (hc : c ∈ joinSep a segs) : c = a ∨ ∃ seg ∈ segs, c ∈ seg := by
  induction segs with
  | nil => cases hc
  | cons s ss ih =>
    cases ss with
    | nil =>
      exact Or.inr ⟨s, List.mem_cons_self s [], hc⟩
    | cons s2 ss2 =>
      rw [show joinSep a (s :: s2 :: ss2) = s ++ a :: joinSep a (s2 :: ss2) from by
        simp [joinSep]] at hc
      rcases List.mem_append.mp hc with hc | hc
      · exact Or.inr ⟨s, List.mem_cons_self s _, hc⟩
      · rcases List.mem_cons.mp hc with rfl | hc
        · exact Or.inl rfl
        · rcases ih hc with h | ⟨seg, hs, hcs⟩
          · exact Or.inl h
          · exact Or.inr ⟨seg, List.mem_cons_of_mem s hs, hcs⟩

/-- C9: `normalizeUrl` is total (it is a Lean function into `String`)
and acts as the identity on every input that does not parse as a URL:
the `catch` branch returns the input unchanged, so the normalization
guarantee silently degrades to a no-op on unparseable input. -/
theorem c9_normalize_total_fallback (u : String) (h : parseUrl u = none) :
    normalizeUrl u = u := by
  simp [normalizeUrl, h]

theorem c9_normalize_total_fallback_witness :
    normalizeUrl "not a url" = "not a url" :=
  c9_normalize_total_fallback "not a url" (by decide)

/-- C4: `searchWeb` throws exactly when the search credential is absent;
with the credential present, a transport error, a non-2xx response, or a
malformed response body all produce `ok []` rather than an error. -/
theorem c4_searchWeb_error_contract (env : NetEnv) (query : String) (count : Nat) :
    ((∃ msg, searchWeb env query count = .error msg) ↔ env.braveKey = none) ∧
    (env.braveKey ≠ none → braveRequestFailed (env.brave query count) = true →
      searchWeb env query count = .ok []) := by
  constructor
  · cases hk : env.braveKey with
    | none => simp [searchWeb, hk]
    | some k =>
      cases hbo : env.brave query count with
      | networkError => simp [searchWeb, hk, hbo]
      | response ok status body =>
        cases ok with
        | false => simp [searchWeb, hk, hbo]
        | true =>
          cases body with
          | none => simp [searchWeb, hk, hbo]
          | some data =>
            cases hw : data.web with
            | none => simp [searchWeb, hk, hbo, hw]
            | some results => simp [searchWeb, hk, hbo, hw]
  · intro hk hbad
    cases hkk : env.braveKey with
    | none => exact absurd hkk hk
    | some k =>
      cases hbo : env.brave query count with
      | networkError => simp [searchWeb, hkk, hbo]
      | response ok status body =>
        rw [hbo] at hbad
        cases ok with
        | false => simp [searchWeb, hkk, hbo]
        | true =>
          cases body with
          | none => simp [searchWeb, hkk, hbo]
          | some data => simp [braveRequestFailed] at hbad

theorem c4_searchWeb_error_contract_witness :
    (∃ msg, searchWeb deadEnv "q" 5 = .error msg) ∧
      searchWeb failFetchEnv "q" 5 = .ok [] :=
  ⟨(c4_searchWeb_error_contract deadEnv "q" 5).1.mpr (by decide),
   (c4_searchWeb_error_contract failFetchEnv "q" 5).2 (by decide) (by decide)⟩

/-- A list never equals itself with one more element appended. -/
theorem append_singleton_ne {α : Type} (l : List α) (x : α) : l ++ [x] ≠ l := by
  intro h
  have hl := congrArg List.length h
  simp at hl

/-- C2: once a candidate reaches the scoring stage (not a duplicate,
under the count cap, URL verified, content specific with quality ≥ 20,
authority call returning a score `a`), it is accepted into the verified
list iff `relevance ≥ 20 ∧ a ≥ 10 ∧ round(0.4·relevance + 0.2·a +
0.4·quality) ≥ 40`; in particular a candidate whose relevance score is
10 is never accepted, whatever `a` and the quality are. -/
theorem c2_threshold_acceptance (env : NetEnv) (userQuery : String) (count : Nat)
    (st : AggState) (r : Source) (a : Int)
    (hseen : st.seenUrls.contains r.uri = false)
    (hcap : st.verifiedSources.length < count)
    (hvalid : (verifySourceUrl env r.uri).isValid = true)
    (hspec : (extractAndAnalyzeContent env (verifySourceUrl env r.uri).finalUrl).isSpecific = true)
    (hqual : ¬ (extractAndAnalyzeContent env (verifySourceUrl env r.uri).finalUrl).contentQuality < 20)
    (hauth : verifySourceAuthority env (verifySourceUrl env r.uri).finalUrl r.title
        (extractAndAnalyzeContent env (verifySourceUrl env r.uri).finalUrl).content = .ok a) :
    ((aggStateOf (processResult env userQuery count st r)).verifiedSources ≠ st.verifiedSources ↔
      (20 ≤ verifyContentClaims env
          (extractAndAnalyzeContent env (verifySourceUrl env r.uri).finalUrl).content
          userQuery r.title ∧
        10 ≤ a ∧
        40 ≤ jsRound ((verifyContentClaims env
            (extractAndAnalyzeContent env (verifySourceUrl env r.uri).finalUrl).content
            userQuery r.title : ℚ) * 0.4 + (a : ℚ) * 0.2 +
          (extractAndAnalyzeContent env (verifySourceUrl env r.uri).finalUrl).contentQuality
            * 0.4))) ∧
    (verifyContentClaims env
        (extractAndAnalyzeContent env (verifySourceUrl env r.uri).finalUrl).content
        userQuery r.title = 10 →
      (aggStateOf (processResult env userQuery count st r)).verifiedSources
        = st.verifiedSources) := by
  have hcap' : ¬ count ≤ st.verifiedSources.length := not_le.mpr hcap
  have hseen' : r.uri ∉ st.seenUrls := by
    simp only [List.contains, List.elem_eq_mem, decide_eq_false_iff_not] at hseen
    exact hseen
  set cs := verifyContentClaims env
    (extractAndAnalyzeContent env (verifySourceUrl env r.uri).finalUrl).content
    userQuery r.title with hcs
  set comp := jsRound ((cs : ℚ) * 0.4 + (a : ℚ) * 0.2 +
    (extractAndAnalyzeContent env (verifySourceUrl env r.uri).finalUrl).contentQuality * 0.4)
    with hcomp
  by_cases h20 : 20 ≤ cs
  · by_cases h10 : 10 ≤ a
    · by_cases h40 : 40 ≤ comp
      · constructor
        · simp [processResult, initialEnhanced, aggStateOf, hseen', hcap', hvalid, hspec,
            hqual, hauth, ← hcs, ← hcomp, h20, h10, h40]
        · intro h
          rw [h] at h20
          omega
      · constructor
        · simp [processResult, initialEnhanced, aggStateOf, hseen', hcap', hvalid, hspec,
            hqual, hauth, ← hcs, ← hcomp, h40]
        · intro _
          simp [processResult, initialEnhanced, aggStateOf, hseen', hcap', hvalid, hspec,
            hqual, hauth, ← hcs, ← hcomp, h40]
    · constructor
      · simp [processResult, initialEnhanced, aggStateOf, hseen', hcap', hvalid, hspec,
          hqual, hauth, ← hcs, ← hcomp, h10]
      · intro _
        simp [processResult, initialEnhanced, aggStateOf, hseen', hcap', hvalid, hspec,
          hqual, hauth, ← hcs, ← hcomp, h10]
  · constructor
    · simp [processResult, initialEnhanced, aggStateOf, hseen', hcap', hvalid, hspec,
        hqual, hauth, ← hcs, ← hcomp, h20]
    · intro _
      simp [processResult, initialEnhanced, aggStateOf, hseen', hcap', hvalid, hspec,
        hqual, hauth, ← hcs, ← hcomp, h20]

theorem c2_threshold_acceptance_witness :
    (aggStateOf (processResult cexEnv "q" 8 ⟨[], []⟩ ⟨"https://a.com/r1", "ZZ"⟩)).verifiedSources
      ≠ ([] : List EnhancedSource) :=
  ((c2_threshold_acceptance cexEnv "q" 8 ⟨[], []⟩ ⟨"https://a.com/r1", "ZZ"⟩ 70
      (by decide) (by decide) (by decide) (by decide) (by decide) (by rfl)).1).mpr
    ⟨by decide, by decide, by decide⟩

/-- Sorting by the descending-score comparator never reorders elements
of equal score: filtering any one score class out of the sorted list
gives back exactly the filter of the input (stability). -/
theorem filter_score_insertionSort (k : Nat) (l : List EnhancedSource) :
    (List.insertionSort scoreGE l).filter (fun e => scoreOf e == k) =
      l.filter (fun e => scoreOf e == k) := by
  induction l with
  | nil => rfl
  | cons a l ih =>
    show ((List.insertionSort scoreGE l).orderedInsert scoreGE a).filter _ = _
    rw [List.orderedInsert_eq_take_drop]
    by_cases hp : scoreOf a = k
    · have htw : ((List.insertionSort scoreGE l).takeWhile
          (fun b => decide ¬scoreGE a b)).filter (fun e => scoreOf e == k) = [] := by
        rw [List.filter_eq_nil_iff]
        intro b hb
        have hnb := List.mem_takeWhile_imp hb
        simp only [decide_not, Bool.not_eq_true', decide_eq_false_iff_not] at hnb
        simp only [beq_iff_eq]
        intro hbk
        exact hnb (by rw [scoreGE, hbk, hp])
      rw [List.filter_append, htw, List.nil_append,
        List.filter_cons_of_pos (by simpa using hp)]
      have hdw : ((List.insertionSort scoreGE l).dropWhile
          (fun b => decide ¬scoreGE a b)).filter (fun e => scoreOf e == k) =
          (List.insertionSort scoreGE l).filter (fun e => scoreOf e == k) := by
        conv_rhs => rw [← List.takeWhile_append_dropWhile
          (fun b => decide ¬scoreGE a b) (List.insertionSort scoreGE l)]
        rw [List.filter_append, htw, List.nil_append]
      rw [hdw, ih, List.filter_cons_of_pos (by simpa using hp)]
    · rw [List.filter_append, List.filter_cons_of_neg (by simpa using hp)]
      rw [← List.filter_append, List.takeWhile_append_dropWhile, ih,
        List.filter_cons_of_neg (by simpa using hp)]

/-- C3: the list returned by `searchTaxResources` never exceeds the
requested count; the underlying ranked list is sorted by the composite
verification score in descending order; and within any single score the
relative order of the accepted sources is preserved (stable ties: the
ranked list's score class is a prefix of the accepted list's score
class). -/
theorem c3_ranked_output (env : NetEnv) (query : String) (count : Nat) :
    searchTaxResources env query count =
      (rankedSources env query count).map mapEnhancedSourceToSource ∧
    (searchTaxResources env query count).length ≤ count ∧
    List.Sorted scoreGE (rankedSources env query count) ∧
    ∀ k : Nat, (rankedSources env query count).filter (fun e => scoreOf e == k) <+:
      (aggFinalState env query count).verifiedSources.filter (fun e => scoreOf e == k) := by
  refine ⟨rfl, ?_, ?_, ?_⟩
  · show ((rankedSources env query count).map mapEnhancedSourceToSource).length ≤ count
    rw [List.length_map]
    exact List.length_take_le count _
  · exact ((List.sorted_insertionSort scoreGE _).sublist (List.take_sublist _ _))
  · intro k
    have h1 : (rankedSources env query count).filter (fun e => scoreOf e == k) <+:
        (List.insertionSort scoreGE
          (aggFinalState env query count).verifiedSources).filter (fun e => scoreOf e == k) :=
      (List.take_prefix _ _).filter _
    rw [filter_score_insertionSort] at h1
    exact h1

set_option maxRecDepth 40000 in
/-- C1 as stated is false: the deduplication key is the candidate URL
taken *before* the re-verification step, and the accepted source's `uri`
is then overwritten with the re-verification's `finalUrl`.  In `cexEnv`
the two candidates surface as the distinct URLs `…/r1` and `…/r2`, pass
the `seenUrls` check, and both re-verify (redirect) to `…/final`, so the
returned ranked list contains the same normalized URI twice. -/
theorem c1_duplicate_uri_counterexample :
    ¬ ((searchTaxResources cexEnv "q" 8).map (fun s => s.uri)).Nodup := by
  have h : (searchTaxResources cexEnv "q" 8).map (fun s => s.uri) =
      ["https://a.com/final", "https://a.com/final"] := by decide
  rw [h]
  simp

/-- One loop iteration preserves the dedup invariant: the `seenUrls` set
stays duplicate-free, and every accepted source's `uri` is the
verification image of one of the seen dedup keys (one key per accepted
source, in order). -/
theorem processResult_inv (env : NetEnv) (uq : String) (count : Nat)
    (st : AggState) (r : Source)
    (hnd : st.seenUrls.Nodup)
    (hkeys : ∃ keys : List String, keys.Sublist st.seenUrls ∧
      st.verifiedSources.map (fun e => e.uri) =
        keys.map (fun u => (verifySourceUrl env u).finalUrl)) :
    (aggStateOf (processResult env uq count st r)).seenUrls.Nodup ∧
    ∃ keys : List String,
      keys.Sublist (aggStateOf (processResult env uq count st r)).seenUrls ∧
      (aggStateOf (processResult env uq count st r)).verifiedSources.map (fun e => e.uri) =
        keys.map (fun u => (verifySourceUrl env u).finalUrl) := by
  obtain ⟨keys, hsub, hmap⟩ := hkeys
  have hurl : (initialEnhanced r).url = r.uri := rfl
  by_cases hc : st.seenUrls.contains r.uri = true ∨ count ≤ st.verifiedSources.length
  · have hcond : (st.seenUrls.contains (initialEnhanced r).url ||
        decide (count ≤ st.verifiedSources.length)) = true := by
      rcases hc with hc | hc
      · rw [hurl, hc, Bool.true_or]
      · rw [decide_eq_true hc, Bool.or_true]
    simp only [processResult, hcond, if_true, aggStateOf]
    exact ⟨hnd, keys, hsub, hmap⟩
  · push_neg at hc
    obtain ⟨hc1, hc2⟩ := hc
    have hcont : st.seenUrls.contains r.uri = false := by
      cases h : st.seenUrls.contains r.uri with
      | false => rfl
      | true => exact absurd h hc1
    have hnotmem : r.uri ∉ st.seenUrls := by
      simp only [List.contains, List.elem_eq_mem, decide_eq_false_iff_not] at hcont
      exact hcont
    have hcond : (st.seenUrls.contains (initialEnhanced r).url ||
        decide (count ≤ st.verifiedSources.length)) = false := by
      rw [hurl, hcont, Bool.false_or, decide_eq_false (not_le.mpr hc2)]
    have hnd1 : (st.seenUrls ++ [r.uri]).Nodup := by
      simp [List.nodup_append, hnd, hnotmem]
    have hsub1 : keys.Sublist (st.seenUrls ++ [r.uri]) :=
      hsub.trans (List.sublist_append_left _ _)
    have hsub2 : (keys ++ [r.uri]).Sublist (st.seenUrls ++ [r.uri]) :=
      List.Sublist.append hsub (List.Sublist.refl _)
    simp only [processResult, hcond, Bool.false_eq_true, if_false]
    split
    · exact ⟨hnd1, keys, hsub1, hmap⟩
    · split
      · exact ⟨hnd1, keys, hsub1, hmap⟩
      · split
        · exact ⟨hnd1, keys, hsub1, hmap⟩
        · split
          · refine ⟨hnd1, keys ++ [r.uri], hsub2, ?_⟩
            simp [aggStateOf, hmap, initialEnhanced]
          · exact ⟨hnd1, keys, hsub1, hmap⟩

/-- The dedup invariant survives a whole result list, including an
early abort by the per-query catch. -/
theorem processResults_inv (env : NetEnv) (uq : String) (count : Nat)
    (rs : List Source) (st : AggState)
    (hnd : st.seenUrls.Nodup)
    (hkeys : ∃ keys : List String, keys.Sublist st.seenUrls ∧
      st.verifiedSources.map (fun e => e.uri) =
        keys.map (fun u => (verifySourceUrl env u).finalUrl)) :
    (processResults env uq count st rs).seenUrls.Nodup ∧
    ∃ keys : List String,
      keys.Sublist (processResults env uq count st rs).seenUrls ∧
      (processResults env uq count st rs).verifiedSources.map (fun e => e.uri) =
        keys.map (fun u => (verifySourceUrl env u).finalUrl) := by
  induction rs generalizing st with
  | nil => exact ⟨hnd, hkeys⟩
  | cons r rs ih =>
    have hstep := processResult_inv env uq count st r hnd hkeys
    cases hpr : processResult env uq count st r with
    | ok st' =>
      rw [processResults, hpr]
      rw [hpr] at hstep
      exact ih st' hstep.1 hstep.2
    | error st' =>
      rw [processResults, hpr]
      rw [hpr] at hstep
      exact hstep

/-- The dedup invariant holds for the final aggregation state. -/
theorem aggFinalState_inv (env : NetEnv) (query : String) (count : Nat) :
    (aggFinalState env query count).seenUrls.Nodup ∧
    ∃ keys : List String,
      keys.Sublist (aggFinalState env query count).seenUrls ∧
      (aggFinalState env query count).verifiedSources.map (fun e => e.uri) =
        keys.map (fun u => (verifySourceUrl env u).finalUrl) := by
  rw [aggFinalState]
  generalize generateTargetedSearchQueries env query = qs
  have h0 : (⟨[], []⟩ : AggState).seenUrls.Nodup ∧
      ∃ keys : List String, keys.Sublist (⟨[], []⟩ : AggState).seenUrls ∧
        (⟨[], []⟩ : AggState).verifiedSources.map (fun e => e.uri) =
          keys.map (fun u => (verifySourceUrl env u).finalUrl) :=
    ⟨List.nodup_nil, [], List.Sublist.refl _, rfl⟩
  generalize hst : (⟨[], []⟩ : AggState) = st at h0 ⊢
  clear hst
  induction qs generalizing st with
  | nil => exact h0
  | cons q qs ih =>
    simp only [List.foldl_cons]
    apply ih
    cases hsw : searchWeb env q ((count + 1) / 2) with
    | error e => exact h0
    | ok results => exact processResults_inv env query count results st h0.1 h0.2

/-- C1 amended: the aggregator deduplicates on the pre-verification
candidate URL and then rewrites each accepted `uri` to the
re-verification's `finalUrl`, so the returned list carries each
normalized URI at most once *provided* the verification map sends
distinct processed candidate URLs to distinct final URLs.  When two
distinct candidates resolve to the same final URL the guarantee fails
(see the counterexample). -/
theorem c1_dedup_amended (env : NetEnv) (query : String) (count : Nat)
    (hinj : ∀ u v, u ∈ (aggFinalState env query count).seenUrls →
      v ∈ (aggFinalState env query count).seenUrls →
      (verifySourceUrl env u).finalUrl = (verifySourceUrl env v).finalUrl → u = v) :
    ((searchTaxResources env query count).map (fun s => s.uri)).Nodup := by
  obtain ⟨hnd, keys, hsub, hmap⟩ := aggFinalState_inv env query count
  have hknd : keys.Nodup := hsub.nodup hnd
  have hvs : ((aggFinalState env query count).verifiedSources.map (fun e => e.uri)).Nodup := by
    rw [hmap]
    exact hknd.map_on fun x hx y hy hxy => hinj x y (hsub.subset hx) (hsub.subset hy) hxy
  have hsorted : ((List.insertionSort scoreGE
      (aggFinalState env query count).verifiedSources).map (fun e => e.uri)).Nodup :=
    (((List.perm_insertionSort scoreGE _).map (fun e => e.uri)).nodup_iff).mpr hvs
  have hranked : ((rankedSources env query count).map (fun e => e.uri)).Nodup := by
    rw [rankedSources, List.map_take]
    exact (List.take_sublist _ _).nodup hsorted
  have hout : (searchTaxResources env query count).map (fun s => s.uri) =
      (rankedSources env query count).map (fun e => e.uri) := by
    rw [searchTaxResources, List.map_map]
    rfl
  rw [hout]
  exact hranked

theorem c1_dedup_amended_witness :
    ((searchTaxResources deadEnv "q" 8).map (fun s => s.uri)).Nodup :=
  c1_dedup_amended deadEnv "q" 8 (fun u v hu _ _ => by
    rw [show (aggFinalState deadEnv "q" 8).seenUrls = [] from by decide] at hu
    exact absurd hu (List.not_mem_nil u))

/-- C6: an answer text with zero inline citations, validated against
more than one available source, is invalid and the issue list contains
the insufficiency message about the citation count being below the
required minimum. -/
theorem c6_min_citations (text : String) (sources : List Source)
    (hext : extractInlineCitations text = []) (hlen : 1 < sources.length) :
    (validateCitations text sources 2).isValid = false ∧
    "Insufficient citations: found 0, required minimum 2 when multiple sources available" ∈
      (validateCitations text sources 2).issues := by
  simp only [validateCitations, hext]
  rw [if_pos (by simpa using hlen)]
  constructor
  · simp
  · have hm : ("Insufficient citations: found 0, required minimum 2 when multiple sources available" : String) =
        "Insufficient citations: found " ++ toString ([] : List CitationMatch).length ++
          ", required minimum " ++ toString 2 ++ " when multiple sources available" := by decide
    rw [hm]
    simp

theorem c6_min_citations_witness :
    (validateCitations "hello world" [⟨"u1", "t1"⟩, ⟨"u2", "t2"⟩, ⟨"u3", "t3"⟩] 2).isValid
        = false ∧
    "Insufficient citations: found 0, required minimum 2 when multiple sources available" ∈
      (validateCitations "hello world" [⟨"u1", "t1"⟩, ⟨"u2", "t2"⟩, ⟨"u3", "t3"⟩] 2).issues :=
  c6_min_citations "hello world" [⟨"u1", "t1"⟩, ⟨"u2", "t2"⟩, ⟨"u3", "t3"⟩]
    (by decide) (by decide)

/-- C7: `validateCitations` flags a citation as referencing an
unavailable source exactly when its URL matches no available source
either verbatim or after comparison-normalization; in particular citing
`https://www.canada.ca/path/` is not flagged when
`https://canada.ca/path` is among the available sources. -/
theorem c7_url_fidelity :
    (∀ (text : String) (sources : List Source) (c : CitationMatch),
      c ∈ invalidCitationsOf (extractInlineCitations text) sources ↔
        c ∈ extractInlineCitations text ∧
          (∀ s ∈ sources, c.url ≠ s.uri) ∧
          (∀ s ∈ sources, normalizeUrlForComparison c.url ≠ normalizeUrlForComparison s.uri)) ∧
    invalidCitationsOf
        (extractInlineCitations "See [CRA Guide](https://www.canada.ca/path/) for details.")
        [{ uri := "https://canada.ca/path", title := "CRA Guide" }] = [] := by
  constructor
  · intro text sources c
    simp only [invalidCitationsOf, List.mem_filter, Bool.and_eq_true, Bool.not_eq_true',
      List.contains, List.elem_eq_mem, decide_eq_false_iff_not, List.mem_map, not_exists]
    constructor
    · rintro ⟨hmem, h1, h2⟩
      exact ⟨hmem, fun s hs he => h1 s ⟨hs, he.symm⟩, fun s hs he => h2 s ⟨hs, he.symm⟩⟩
    · rintro ⟨hmem, h1, h2⟩
      exact ⟨hmem, fun s hs => h1 s hs.1 hs.2.symm, fun s hs => h2 s hs.1 hs.2.symm⟩
  · decide

theorem c7_url_fidelity_witness :
    (⟨"[G](https://b.com/x)", "G", "https://b.com/x", 4, 24⟩ : CitationMatch) ∈
      invalidCitationsOf (extractInlineCitations "See [G](https://b.com/x) now")
        [⟨"https://a.com/y", "T"⟩] :=
  (c7_url_fidelity.1 "See [G](https://b.com/x) now" [⟨"https://a.com/y", "T"⟩] _).mpr
    ⟨by decide, by decide, by decide⟩

/-- C10: `extractAndAnalyzeContent` never throws: a rejected fetch, a
timeout or a non-2xx status yields the zeroed analysis, and in every
case the returned content has at most 2000 characters and the content
quality lies in the closed interval `[0, 100]`. -/
theorem c10_content_analysis_bounds (env : NetEnv) (url : String) :
    (fetchFailed (env.fetchPage url) = true →
      extractAndAnalyzeContent env url = zeroAnalysis) ∧
    (extractAndAnalyzeContent env url).content.length ≤ 2000 ∧
    0 ≤ (extractAndAnalyzeContent env url).contentQuality ∧
    (extractAndAnalyzeContent env url).contentQuality ≤ 100 := by
  cases h : env.fetchPage url with
  | error =>
    refine ⟨fun _ => by simp [extractAndAnalyzeContent, h], ?_, ?_, ?_⟩ <;>
      simp [extractAndAnalyzeContent, h, zeroAnalysis]
  | response ok status stext rurl ct body =>
    cases ok with
    | false =>
      refine ⟨fun _ => by simp [extractAndAnalyzeContent, h], ?_, ?_, ?_⟩ <;>
        simp [extractAndAnalyzeContent, h, zeroAnalysis]
    | true =>
      refine ⟨fun hbad => by simp [fetchFailed] at hbad, ?_, ?_, ?_⟩
      · simp only [extractAndAnalyzeContent, h, jsSubstring]
        simp
      · simp only [extractAndAnalyzeContent, h]
        exact le_min (by norm_num) (le_max_left 0 _)
      · simp only [extractAndAnalyzeContent, h]
        exact min_le_left 100 _

/-- C5: for a malformed URL, a URL with a scheme other than http/https,
or an unrecoverable verification failure (rejected HEAD, or non-2xx on
HEAD and on the GET fallback), `verifySourceUrl` returns `isValid =
false`, `status = failed`, and `finalUrl` equal to the normalization of
the original input URL. -/
theorem c5_verify_failure_preserves_url (env : NetEnv) (u : String)
    (h : isValidUrlFormat u = false ∨ headUnrecoverable env (normalizeUrl u) = true) :
    verifySourceUrl env u = failedVerification u ∧
    (verifySourceUrl env u).isValid = false ∧
    (verifySourceUrl env u).status = .failed ∧
    (verifySourceUrl env u).finalUrl = normalizeUrl u := by
  have hmain : verifySourceUrl env u = failedVerification u := by
    cases hvf : isValidUrlFormat u with
    | false => simp [verifySourceUrl, hvf]
    | true =>
      rcases h with h | h
      · exact absurd hvf (by simp [h])
      · rw [headUnrecoverable] at h
        cases hh : env.fetchHead (normalizeUrl u) with
        | error => simp [verifySourceUrl, hvf, hh]
        | response ok status stext rurl ct body =>
          rw [hh] at h
          cases ok with
          | true => simp at h
          | false =>
            by_cases hs : (status = 405 ∨ status = 403)
            · cases hg : env.fetchRangedGet (normalizeUrl u) with
              | error => simp [verifySourceUrl, hvf, hh, hs, hg]
              | response gok gs gst gurl gct gbody =>
                rw [hg] at h
                cases gok with
                | true => rcases hs with hs | hs <;> subst hs <;> simp at h
                | false => simp [verifySourceUrl, hvf, hh, hs, hg]
            · simp [verifySourceUrl, hvf, hh, hs]
  refine ⟨hmain, ?_, ?_, ?_⟩ <;> rw [hmain] <;> rfl

theorem c5_verify_failure_preserves_url_witness :
    verifySourceUrl deadEnv "nota url" = failedVerification "nota url" ∧
    (verifySourceUrl deadEnv "nota url").isValid = false ∧
    (verifySourceUrl deadEnv "nota url").status = .failed ∧
    (verifySourceUrl deadEnv "nota url").finalUrl = normalizeUrl "nota url" :=
  c5_verify_failure_preserves_url deadEnv "nota url" (Or.inl (by decide))

theorem c10_content_analysis_bounds_witness :
    (extractAndAnalyzeContent deadEnv "https://a.com/x" = zeroAnalysis) ∧
      (extractAndAnalyzeContent deadEnv "https://a.com/x").content.length ≤ 2000 ∧
      0 ≤ (extractAndAnalyzeContent deadEnv "https://a.com/x").contentQuality ∧
      (extractAndAnalyzeContent deadEnv "https://a.com/x").contentQuality ≤ 100 :=
  ⟨(c10_content_analysis_bounds deadEnv "https://a.com/x").1 (by decide),
   (c10_content_analysis_bounds deadEnv "https://a.com/x").2⟩

theorem parsePair_fst (seg : List Char) : (parsePair seg).1 = seg.takeWhile notEq := by
  rw [parsePair]
  split <;> rfl

theorem parseUrl_shape {s : String} {r : UrlRecord} (h : parseUrl s = some r) :
    ParsedShape r := by
  rw [parseUrl] at h
  split at h
  next rest heq =>
    have hscheme : ∀ c ∈ List.takeWhile notColon s.data, c ≠ ':' := by
      intro c hc
      have hp := List.mem_takeWhile_imp hc
      simpa [notColon] using hp
    have hhost : ∀ c ∈ List.takeWhile hostChar rest, c ≠ '/' ∧ c ≠ '?' ∧ c ≠ '#' := by
      intro c hc
      have hp := List.mem_takeWhile_imp hc
      simp only [hostChar, Bool.and_eq_true, bne_iff_ne] at hp
      exact ⟨hp.1.1, hp.1.2, hp.2⟩
    have hpath0 : ∀ c ∈ List.takeWhile pathChar (List.dropWhile hostChar rest),
        c ≠ '?' ∧ c ≠ '#' := by
      intro c hc
      have hp := List.mem_takeWhile_imp hc
      simpa [pathChar] using hp
    have hpathne : (if (List.takeWhile pathChar (List.dropWhile hostChar rest)).isEmpty = true
        then ['/'] else List.takeWhile pathChar (List.dropWhile hostChar rest)) ≠ [] := by
      split
      · simp
      · next hne =>
        intro hh
        rw [hh] at hne
        simp at hne
    have hpathhead : (if (List.takeWhile pathChar (List.dropWhile hostChar rest)).isEmpty = true
        then ['/'] else List.takeWhile pathChar (List.dropWhile hostChar rest)).head?
          = some '/' := by
      split
      · rfl
      · next hne =>
        cases hps : List.takeWhile pathChar (List.dropWhile hostChar rest) with
        | nil => rw [hps] at hne; simp at hne
        | cons c t =>
          obtain ⟨hh, hp⟩ := head_of_takeWhile hps
          have hfail := head_of_dropWhile hh
          have hc : c = '/' := by
            simp only [hostChar, Bool.and_eq_false_iff, bne_eq_false_iff_eq] at hfail
            simp only [pathChar, Bool.and_eq_true, bne_iff_ne] at hp
            rcases hfail with hfail | hfail
            rcases hfail with hfail | hfail
            · exact hfail
            · exact absurd hfail hp.1
            · exact absurd hfail hp.2
          subst hc
          rfl
    have hpathall : ∀ c ∈ (if (List.takeWhile pathChar
          (List.dropWhile hostChar rest)).isEmpty = true
        then ['/'] else List.takeWhile pathChar (List.dropWhile hostChar rest)),
        c ≠ '?' ∧ c ≠ '#' := by
      split
      · intro c hc
        rw [List.mem_singleton] at hc
        subst hc
        exact ⟨by decide, by decide⟩
      · exact hpath0
    simp only [] at h
    split at h
    next rest3 heq2 =>
      have hq : ∀ c ∈ List.takeWhile notHash rest3, c ≠ '#' := by
        intro c hc
        have hp := List.mem_takeWhile_imp hc
        simpa [notHash] using hp
      have hkey : ∀ kv ∈ parseQuery (List.takeWhile notHash rest3), ∀ c ∈ kv.1,
          c ≠ '=' ∧ c ≠ '&' ∧ c ≠ '#' := by
        intro kv hkv c hc
        simp only [parseQuery, List.mem_map, List.mem_filter] at hkv
        obtain ⟨seg, ⟨hseg, -⟩, rfl⟩ := hkv
        rw [parsePair_fst] at hc
        have hceq : c ≠ '=' := by
          have hp := List.mem_takeWhile_imp hc
          simpa [notEq] using hp
        have hcseg : c ∈ seg := (List.takeWhile_sublist notEq).subset hc
        obtain ⟨hcq, hcamp⟩ := splitOnChar_shape hseg hcseg
        exact ⟨hceq, hcamp, hq c hcq⟩
      have hval : ∀ kv ∈ parseQuery (List.takeWhile notHash rest3), ∀ c ∈ kv.2,
          c ≠ '&' ∧ c ≠ '#' := by
        intro kv hkv c hc
        simp only [parseQuery, List.mem_map, List.mem_filter] at hkv
        obtain ⟨seg, ⟨hseg, -⟩, rfl⟩ := hkv
        have hcseg : c ∈ seg := by
          cases hm : seg.dropWhile notEq with
          | nil => rw [parsePair, hm] at hc; cases hc
          | cons x v =>
            rw [parsePair, hm] at hc
            have hxv : c ∈ x :: v := List.mem_cons_of_mem x hc
            rw [← hm] at hxv
            exact (List.dropWhile_sublist notEq).subset hxv
        obtain ⟨hcq, hcamp⟩ := splitOnChar_shape hseg hcseg
        exact ⟨hcamp, hq c hcq⟩
      cases Option.some.inj h
      exact ⟨hscheme, hhost, hpathne, hpathhead, hpathall, hkey, hval⟩
    next f heq2 =>
      cases Option.some.inj h
      exact ⟨hscheme, hhost, hpathne, hpathhead, hpathall,
        fun kv hkv => absurd hkv (List.not_mem_nil kv),
        fun kv hkv => absurd hkv (List.not_mem_nil kv)⟩
    next heq2 a b =>
      cases Option.some.inj h
      exact ⟨hscheme, hhost, hpathne, hpathhead, hpathall,
        fun kv hkv => absurd hkv (List.not_mem_nil kv),
        fun kv hkv => absurd hkv (List.not_mem_nil kv)⟩
  next =>
    exact absurd h (by simp)

theorem parse_serialize (r : UrlRecord) (hs : ParsedShape r) (hf : r.fragment = none) :
    parseUrl ⟨serializeUrl r⟩ = some r := by
  obtain ⟨scheme, host, path, params, frag⟩ := r
  obtain ⟨hscheme, hhost, hpathne, hpathhead, hpathok, hkey, hval⟩ := hs
  simp only at hscheme hhost hpathne hpathhead hpathok hkey hval
  simp only at hf
  subst hf
  obtain ⟨p0, pt, rfl⟩ : ∃ p0 pt, path = p0 :: pt := by
    cases path with
    | nil => exact absurd rfl hpathne
    | cons a l => exact ⟨a, l, rfl⟩
  have hp0 : p0 = '/' := by
    simp only [List.head?_cons, Option.some.injEq] at hpathhead
    exact hpathhead
  subst hp0
  have hser : serializeUrl ⟨scheme, host, '/' :: pt, params, none⟩ =
      scheme ++ ':' :: '/' :: '/' :: (host ++ ('/' :: pt ++ serializeQuery params)) := by
    rw [serializeUrl]
    simp [List.append_assoc]
  have hdata : (⟨serializeUrl ⟨scheme, host, '/' :: pt, params, none⟩⟩ : String).data =
      serializeUrl ⟨scheme, host, '/' :: pt, params, none⟩ := rfl
  have h1 : (scheme ++ ':' :: '/' :: '/' ::
      (host ++ ('/' :: pt ++ serializeQuery params))).takeWhile notColon = scheme :=
    takeWhile_append_all (fun c hc => by simp [notColon, hscheme c hc])
      (fun c hc => by
        simp only [List.head?_cons, Option.some.injEq] at hc
        subst hc
        decide)
  have h2 : (scheme ++ ':' :: '/' :: '/' ::
      (host ++ ('/' :: pt ++ serializeQuery params))).dropWhile notColon =
      ':' :: '/' :: '/' :: (host ++ ('/' :: pt ++ serializeQuery params)) :=
    dropWhile_append_all (fun c hc => by simp [notColon, hscheme c hc])
      (fun c hc => by
        simp only [List.head?_cons, Option.some.injEq] at hc
        subst hc
        decide)
  rw [parseUrl]
  simp only [hdata, hser, h1, h2]
  have h3 : (host ++ ('/' :: pt ++ serializeQuery params)).takeWhile hostChar = host :=
    takeWhile_append_all
      (fun c hc => by
        obtain ⟨hc1, hc2, hc3⟩ := hhost c hc
        simp [hostChar, hc1, hc2, hc3])
      (fun c hc => by
        simp only [List.cons_append, List.head?_cons, Option.some.injEq] at hc
        subst hc
        decide)
  have h4 : (host ++ ('/' :: pt ++ serializeQuery params)).dropWhile hostChar =
      '/' :: pt ++ serializeQuery params :=
    dropWhile_append_all
      (fun c hc => by
        obtain ⟨hc1, hc2, hc3⟩ := hhost c hc
        simp [hostChar, hc1, hc2, hc3])
      (fun c hc => by
        simp only [List.cons_append, List.head?_cons, Option.some.injEq] at hc
        subst hc
        decide)
  rw [h3, h4]
  have h5 : ('/' :: pt ++ serializeQuery params).takeWhile pathChar = '/' :: pt := by
    have := @takeWhile_append_all Char pathChar ('/' :: pt) (serializeQuery params)
      (fun c hc => by
        obtain ⟨hc1, hc2⟩ := hpathok c hc
        simp [pathChar, hc1, hc2])
      (fun c hc => by
        cases hq : params with
        | nil => rw [hq] at hc; simp [serializeQuery] at hc
        | cons p ps =>
          rw [hq] at hc
          rw [show serializeQuery (p :: ps) =
            '?' :: joinSep '&' ((p :: ps).map fun kv => kv.1 ++ '=' :: kv.2) from rfl] at hc
          simp only [List.head?_cons, Option.some.injEq] at hc
          subst hc
          decide)
    simpa using this
  have h6 : ('/' :: pt ++ serializeQuery params).dropWhile pathChar =
      serializeQuery params := by
    have := @dropWhile_append_all Char pathChar ('/' :: pt) (serializeQuery params)
      (fun c hc => by
        obtain ⟨hc1, hc2⟩ := hpathok c hc
        simp [pathChar, hc1, hc2])
      (fun c hc => by
        cases hq : params with
        | nil => rw [hq] at hc; simp [serializeQuery] at hc
        | cons p ps =>
          rw [hq] at hc
          rw [show serializeQuery (p :: ps) =
            '?' :: joinSep '&' ((p :: ps).map fun kv => kv.1 ++ '=' :: kv.2) from rfl] at hc
          simp only [List.head?_cons, Option.some.injEq] at hc
          subst hc
          decide)
    simpa using this
  rw [h5, h6]
  cases params with
  | nil =>
    simp [serializeQuery]
  | cons p ps =>
    have hsegchar : ∀ seg ∈ (p :: ps).map (fun kv => kv.1 ++ '=' :: kv.2),
        ∀ c ∈ seg, c ≠ '&' ∧ c ≠ '#' := by
      intro seg hseg c hc
      rw [List.mem_map] at hseg
      obtain ⟨kv, hkv, rfl⟩ := hseg
      rcases List.mem_append.mp hc with hck | hcv
      · have hk := hkey kv hkv c hck
        exact ⟨hk.2.1, hk.2.2⟩
      · rcases List.mem_cons.mp hcv with rfl | hcv
        · exact ⟨by decide, by decide⟩
        · exact hval kv hkv c hcv
    have hqb : ∀ c ∈ joinSep '&' ((p :: ps).map fun kv => kv.1 ++ '=' :: kv.2),
        notHash c = true := by
      intro c hc
      rcases mem_joinSep hc with rfl | ⟨seg, hseg, hcs⟩
      · decide
      · simp [notHash, (hsegchar seg hseg c hcs).2]
    rw [show serializeQuery (p :: ps) =
      '?' :: joinSep '&' ((p :: ps).map fun kv => kv.1 ++ '=' :: kv.2) from rfl]
    simp only []
    rw [takeWhile_all hqb, dropWhile_all hqb]
    have hsplit : splitOnChar '&' (joinSep '&' ((p :: ps).map fun kv => kv.1 ++ '=' :: kv.2)) =
        (p :: ps).map fun kv => kv.1 ++ '=' :: kv.2 :=
      splitOnChar_joinSep '&' _ (by simp)
        (fun seg hseg c hc => (hsegchar seg hseg c hc).1)
    have hfilter : (((p :: ps).map fun kv => kv.1 ++ '=' :: kv.2).filter
        (fun seg => !seg.isEmpty)) = (p :: ps).map fun kv => kv.1 ++ '=' :: kv.2 := by
      rw [List.filter_eq_self]
      intro seg hseg
      rw [List.mem_map] at hseg
      obtain ⟨kv, hkv, rfl⟩ := hseg
      cases hkv1 : kv.1 <;> simp
    have hpair : ∀ kv ∈ p :: ps, parsePair (kv.1 ++ '=' :: kv.2) = kv := by
      intro kv hkv
      have hk1 : (kv.1 ++ '=' :: kv.2).takeWhile notEq = kv.1 :=
        takeWhile_append_all
          (fun c hc => by simp [notEq, (hkey kv hkv c hc).1])
          (fun c hc => by
            simp only [List.head?_cons, Option.some.injEq] at hc
            subst hc
            decide)
      have hk2 : (kv.1 ++ '=' :: kv.2).dropWhile notEq = '=' :: kv.2 :=
        dropWhile_append_all
          (fun c hc => by simp [notEq, (hkey kv hkv c hc).1])
          (fun c hc => by
            simp only [List.head?_cons, Option.some.injEq] at hc
            subst hc
            decide)
      rw [parsePair, hk1, hk2]
    have hparams : parseQuery (joinSep '&' ((p :: ps).map fun kv => kv.1 ++ '=' :: kv.2)) =
        p :: ps := by
      rw [parseQuery, hsplit, hfilter, List.map_map]
      exact (List.map_congr_left (fun kv hkv => hpair kv hkv)).trans (List.map_id _)
    rw [hparams]
    simp

theorem stripTrailingSlash_shape {p : List Char} (hne : p ≠ [])
    (hhead : p.head? = some '/') (hok : ∀ c ∈ p, c ≠ '?' ∧ c ≠ '#') :
    stripTrailingSlash p ≠ [] ∧ (stripTrailingSlash p).head? = some '/' ∧
      ∀ c ∈ stripTrailingSlash p, c ≠ '?' ∧ c ≠ '#' := by
  rw [stripTrailingSlash]
  split
  · next hcond =>
    obtain ⟨-, hlen⟩ := hcond
    cases p with
    | nil => exact absurd hlen (by simp)
    | cons a t =>
      cases t with
      | nil => exact absurd hlen (by simp)
      | cons b t2 =>
        refine ⟨by simp [List.dropLast], ?_, ?_⟩
        · simp only [List.head?_cons, Option.some.injEq] at hhead
          simp [List.dropLast, hhead]
        · intro c hc
          exact hok c ((List.dropLast_sublist _).subset hc)
  · exact ⟨hne, hhead, hok⟩

theorem normalizeRecord_shape {r : UrlRecord} (hs : ParsedShape r) :
    ParsedShape (normalizeRecord r) := by
  obtain ⟨h1, h2, h3, h4, h5, h6, h7⟩ := hs
  have hstrip := stripTrailingSlash_shape h3 h4 h5
  refine ⟨h1, h2, hstrip.1, hstrip.2.1, hstrip.2.2, ?_, ?_⟩
  · intro kv hkv
    exact h6 kv ((List.filter_sublist _).subset hkv)
  · intro kv hkv
    exact h7 kv ((List.filter_sublist _).subset hkv)

theorem normalizeRecord_idem {r : UrlRecord}
    (hp : stripTrailingSlash (stripTrailingSlash r.path) = stripTrailingSlash r.path) :
    normalizeRecord (normalizeRecord r) = normalizeRecord r := by
  have hfilt : (r.params.filter (fun kv => !trackingParams.contains kv.1)).filter
      (fun kv => !trackingParams.contains kv.1) =
      r.params.filter (fun kv => !trackingParams.contains kv.1) :=
    List.filter_eq_self.mpr (fun kv hkv => (List.mem_filter.mp hkv).2)
  simp [normalizeRecord, hp, hfilt]

/-- C8 counterexample: `normalizeUrl` strips only ONE trailing slash per
pass (`pathname.slice(0, -1)` runs once), so a path ending in two slashes
is shortened again on a second pass: normalizing
`https://x.com/a//` yields `https://x.com/a/`, and normalizing that
yields `https://x.com/a`. -/
theorem c8_idempotence_counterexample :
    normalizeUrl (normalizeUrl "https://x.com/a//") ≠
      normalizeUrl "https://x.com/a//" := by
  decide

/-- C8 (amended): `normalizeUrl` is idempotent on every URL whose parsed
path does not end in a double slash — precisely, whenever one application
of the trailing-slash strip already reaches a fixpoint.  On parse failure
both applications return the input, and on success the second parse
reproduces the normalized record exactly, whose tracking-parameter filter
and fragment clearing are idempotent; only the single-slash strip can
make a second pass differ. -/
theorem c8_normalize_idempotent_amended (u : String)
    (h : ∀ r, parseUrl u = some r →
      stripTrailingSlash (stripTrailingSlash r.path) = stripTrailingSlash r.path) :
    normalizeUrl (normalizeUrl u) = normalizeUrl u := by
  cases hp : parseUrl u with
  | none =>
    have h1 : normalizeUrl u = u := by rw [normalizeUrl, hp]
    simp only [h1]
  | some r =>
    have hshape := parseUrl_shape hp
    have hnr := normalizeRecord_shape hshape
    have h1 : normalizeUrl u = ⟨serializeUrl (normalizeRecord r)⟩ := by
      rw [normalizeUrl, hp]
    have h2 : parseUrl ⟨serializeUrl (normalizeRecord r)⟩ = some (normalizeRecord r) :=
      parse_serialize (normalizeRecord r) hnr rfl
    rw [h1, normalizeUrl, h2]
    show (⟨serializeUrl (normalizeRecord (normalizeRecord r))⟩ : String) =
      ⟨serializeUrl (normalizeRecord r)⟩
    rw [normalizeRecord_idem (h r hp)]

theorem c8_normalize_idempotent_amended_witness :
    normalizeUrl (normalizeUrl "https://canada.ca/page") =
      normalizeUrl "https://canada.ca/page" :=
  c8_normalize_idempotent_amended "https://canada.ca/page" (by
    intro r hr
    have h0 : parseUrl "https://canada.ca/page" =
        some ⟨"https".data, "canada.ca".data, "/page".data, [], none⟩ := by decide
    rw [h0] at hr
    cases Option.some.inj hr
    decide)

end TaxBuddy
